import Mathlib

/-!
Shallow embedding of the `fill` crate: a buffer-filling `fill` loop over an
abstract readable stream, and a `ChunkedReader` iterator adaptor that splits a
stream into fixed-size chunks.

A readable stream is modelled as a state type `σ` together with a step
function `rd : σ → Nat → ReadOut × σ`: given the current state and the length
of the destination slice, one single-shot read returns either the list of
bytes it copied (a prefix of the slice, of length at most the slice length
for conforming readers) or an error, together with the successor state.

The Rust `fill` loop has no intrinsic termination guarantee (a stream that
always reports an interrupted error loops forever), so it is embedded with a
fuel parameter; `FillResult.outOfFuel` marks fuel exhaustion and corresponds
to non-termination of the Rust loop. `FillResult.panicked` marks the one
panic site of `fill`: the slice expression `buf[bytes_read..]`, which in Rust
panics when `bytes_read > buf.len()`.
-/

/-- Error kinds: the distinguished retryable kind `interrupted`
(`std::io::ErrorKind::Interrupted`), and everything else, tagged. -/
inductive ErrorKind where
  | interrupted
  | other (tag : Nat)
deriving DecidableEq, Repr

/-- An error value: a kind plus an opaque payload, so that "returned
verbatim, unmodified" is observable as equality of whole error values. -/
structure IoError where
  kind : ErrorKind
  payload : Nat
deriving DecidableEq, Repr

/-- Outcome of one single-shot read: the bytes copied into the destination
slice (`ok []` is a zero-byte read), or an error. -/
inductive ReadOut where
  | ok (data : List Nat)
  | err (e : IoError)
deriving DecidableEq, Repr

/-- Write the bytes `l` into `buf` starting at offset `off`, leaving the rest
of `buf` unchanged. The result always has the same length as `buf`
(a Rust slice write can never change the buffer's length). -/
def writeAt (buf : List Nat) (off : Nat) (l : List Nat) : List Nat :=
  buf.take off ++ (l ++ buf.drop (off + l.length)).take (buf.length - off)

/-- Result of `fill`: a byte count with the final buffer and stream state, an
error with the final stream state, fuel exhaustion (the Rust loop not
terminating), or a panic (out-of-bounds slice `buf[bytes_read..]`). -/
inductive FillResult (σ : Type) where
  | ok (count : Nat) (buf : List Nat) (s : σ)
  | err (e : IoError) (s : σ)
  | outOfFuel
  | panicked
deriving DecidableEq, Repr

/-- The loop body of `Fill::fill` (src/lib.rs lines 21-33), with explicit
state: `bytesRead` is the accumulated count, `buf` the destination buffer.
Each iteration reads into the remaining suffix `buf[bytesRead..]` (modelled
by passing its length `buf.length - bytesRead` to `rd`); an interrupted
error is retried, any other error is returned as is, a zero-byte read
returns the accumulated count, and a positive read is written into the
buffer and accumulated. -/
def fillLoop {σ : Type} (rd : σ → Nat → ReadOut × σ) :
    Nat → σ → List Nat → Nat → FillResult σ
  | 0, _, _, _ => .outOfFuel
  | fuel + 1, s, buf, bytesRead =>
    if bytesRead ≤ buf.length then
      match rd s (buf.length - bytesRead) with
      | (.err e, s') =>
        if e.kind = .interrupted then
          fillLoop rd fuel s' buf bytesRead
        else
          .err e s'
      | (.ok [], s') => .ok bytesRead buf s'
      | (.ok (b :: bs), s') =>
        fillLoop rd fuel s' (writeAt buf bytesRead (b :: bs))
          (bytesRead + (b :: bs).length)
    else
      .panicked

/-- `Fill::fill`: run the loop starting from an accumulated count of 0. -/
def fill {σ : Type} (rd : σ → Nat → ReadOut × σ) (fuel : Nat) (s : σ)
    (buf : List Nat) : FillResult σ :=
  fillLoop rd fuel s buf 0

/-- The `ChunkedReader` struct (src/lib.rs lines 42-45): the wrapped stream
state and the chunk size. The read behaviour `rd` is passed separately to
each operation (it is the `R : Read` type's method in Rust). -/
structure ChunkedReader (σ : Type) where
  read : σ
  size : Nat
deriving DecidableEq, Repr

/-- `ChunkedReader::into_inner` (src/lib.rs lines 49-51): consume the
reader, returning the underlying stream. -/
def ChunkedReader.intoInner {σ : Type} (cr : ChunkedReader σ) : σ :=
  cr.read

/-- What one call to `ChunkedReader::next` yields: `none` is `None`
(end of sequence), `chunk` is `Some(Ok(vec))`, `err` is `Some(Err(e))`;
`outOfFuel` and `panicked` are passed through from `fill`. -/
inductive NextOut where
  | none
  | chunk (data : List Nat)
  | err (e : IoError)
  | outOfFuel
  | panicked
deriving DecidableEq, Repr

/-- `ChunkedReader::next` (src/lib.rs lines 60-70): allocate a fresh
zero-filled buffer of length `size`, run `fill` on it, and map the outcome:
an error is yielded as an error item, a zero count ends the sequence, a
positive count `l` yields the buffer truncated to its first `l` bytes.
Returns the yielded item together with the updated reader. -/
def ChunkedReader.next {σ : Type} (rd : σ → Nat → ReadOut × σ) (fuel : Nat)
    (cr : ChunkedReader σ) : NextOut × ChunkedReader σ :=
  match fill rd fuel cr.read (List.replicate cr.size 0) with
  | .err e s' => (.err e, ⟨s', cr.size⟩)
  | .ok 0 _ s' => (.none, ⟨s', cr.size⟩)
  | .ok (l + 1) buf s' => (.chunk (buf.take (l + 1)), ⟨s', cr.size⟩)
  | .outOfFuel => (.outOfFuel, cr)
  | .panicked => (.panicked, cr)

/-- `Chunk::chunked` (src/lib.rs lines 77-83): `assert!(size != 0)` then
wrap the stream. `none` models the assertion panicking at construction
time; otherwise the stream and size are stored unchanged. -/
def chunked {σ : Type} (s : σ) (size : Nat) : Option (ChunkedReader σ) :=
  if size = 0 then none else some ⟨s, size⟩

/-- Iterate `ChunkedReader.next` up to `steps` times, collecting the yielded
chunks. Returns `some` list exactly when the iteration reached end of
sequence within `steps` advances with no error, panic, or fuel exhaustion. -/
def collectChunks {σ : Type} (rd : σ → Nat → ReadOut × σ) (fuel : Nat) :
    Nat → ChunkedReader σ → Option (List (List Nat))
  | 0, _ => none
  | steps + 1, cr =>
    match cr.next rd fuel with
    | (.none, _) => some []
    | (.chunk c, cr') => (collectChunks rd fuel steps cr').map (c :: ·)
    | _ => none

/-- A cursor over an in-memory byte list (the `std::io::Cursor` of the
crate's doc examples): a single-shot read copies as many of the remaining
bytes as fit in the slice. -/
def cursorRead (s : List Nat) (n : Nat) : ReadOut × List Nat :=
  (.ok (s.take n), s.drop n)

/-- A scripted stream: the state is a list of canned single-shot read
outcomes, popped one per read (an exhausted script reads zero bytes). -/
def scriptRead (s : List ReadOut) (_n : Nat) : ReadOut × List ReadOut :=
  match s with
  | [] => (.ok [], [])
  | r :: rest => (r, rest)

/-- An error-free stream with a well-defined content: `content s` is the
byte sequence still to be delivered from state `s`. Every single-shot read
succeeds, delivers a prefix of the remaining content no longer than the
destination slice, and delivers at least one byte unless the slice is empty
or the stream is exhausted. -/
def ErrorFreeStream {σ : Type} (rd : σ → Nat → ReadOut × σ)
    (content : σ → List Nat) : Prop :=
  ∀ s n, ∃ l s', rd s n = (.ok l, s') ∧ content s = l ++ content s' ∧
    l.length ≤ n ∧ (l = [] → n = 0 ∨ content s = [])

/-- A conforming reader: a single-shot read never reports more bytes than
the length of the slice it was handed. -/
def BoundedRead {σ : Type} (rd : σ → Nat → ReadOut × σ) : Prop :=
  ∀ s n l s', rd s n = (.ok l, s') → l.length ≤ n

/-- Reference decomposition of a byte list into chunks of size `S` (last
chunk possibly short), used to state what the chunk sequence should be. -/
def splitChunks (S : Nat) (l : List Nat) : List (List Nat) :=
  if h : S = 0 ∨ l = [] then [] else l.take S :: splitChunks S (l.drop S)
termination_by l.length
decreasing_by
  push_neg at h
  have hl : 0 < l.length := List.length_pos.mpr h.2
  simp only [List.length_drop]
  omega

theorem writeAt_length (buf : List Nat) (off : Nat) (l : List Nat) :
    (writeAt buf off l).length = buf.length := by
  simp only [writeAt, List.length_append, List.length_take, List.length_drop]
  omega

theorem writeAt_nil (buf : List Nat) (off : Nat) : writeAt buf off [] = buf := by
  have h2 : (buf.drop off).take (buf.length - off) = buf.drop off :=
    List.take_of_length_le (by simp only [List.length_drop]; omega)
  simp only [writeAt, List.nil_append, List.length_nil, Nat.add_zero, h2]
  exact List.take_append_drop off buf

theorem writeAt_eq (buf : List Nat) (off : Nat) (l : List Nat)
    (h : off + l.length ≤ buf.length) :
    writeAt buf off l = buf.take off ++ l ++ buf.drop (off + l.length) := by
  have h2 : (l ++ buf.drop (off + l.length)).take (buf.length - off)
      = l ++ buf.drop (off + l.length) :=
    List.take_of_length_le
      (by simp only [List.length_append, List.length_drop]; omega)
  simp only [writeAt, h2]
  simp [List.append_assoc]


theorem writeAt_writeAt (buf : List Nat) (off : Nat) (l1 l2 : List Nat)
    (h : off + l1.length + l2.length ≤ buf.length) :
    writeAt (writeAt buf off l1) (off + l1.length) l2 = writeAt buf off (l1 ++ l2) := by
  have h1 : off + l1.length ≤ buf.length := by omega
  have hoff : off ≤ buf.length := by omega
  have htk : (buf.take off).length = off := by
    simp only [List.length_take]; omega
  have htk2 : (buf.take off ++ l1).length = off + l1.length := by
    simp only [List.length_append, htk]
  rw [writeAt_eq buf off l1 h1]
  rw [writeAt_eq _ _ _ (by
    simp only [List.length_append, List.length_take, List.length_drop]; omega)]
  rw [writeAt_eq buf off (l1 ++ l2) (by simp only [List.length_append]; omega)]
  have hA : (buf.take off ++ l1 ++ buf.drop (off + l1.length)).take (off + l1.length)
      = buf.take off ++ l1 := List.take_left' htk2
  have hB : (buf.take off ++ l1 ++ buf.drop (off + l1.length)).drop (off + l1.length + l2.length)
      = buf.drop (off + l1.length + l2.length) := by
    have hsplit : off + l1.length + l2.length = (buf.take off ++ l1).length + l2.length := by
      omega
    rw [hsplit, List.drop_append, List.drop_drop, htk2]
  rw [hA, hB]
  simp [List.append_assoc, List.length_append, Nat.add_assoc]

theorem fillLoop_errorFree {σ : Type} {rd : σ → Nat → ReadOut × σ}
    {content : σ → List Nat} (hEF : ErrorFreeStream rd content) :
    ∀ fuel s buf br, br ≤ buf.length → (content s).length + 1 ≤ fuel →
    ∃ s', fillLoop rd fuel s buf br
        = .ok (br + min (buf.length - br) (content s).length)
              (writeAt buf br ((content s).take (buf.length - br))) s'
      ∧ content s' = (content s).drop (buf.length - br) := by
  intro fuel
  induction fuel with
  | zero => intro s buf br _ hfuel; omega
  | succ fuel ih =>
    intro s buf br hbr hfuel
    obtain ⟨l, s', hrd, hcat, hlen, hnil⟩ := hEF s (buf.length - br)
    cases l with
    | nil =>
      have hstep : fillLoop rd (fuel + 1) s buf br = .ok br buf s' := by
        unfold fillLoop
        rw [if_pos hbr, hrd]
      have hcs : content s = content s' := by simpa using hcat
      rcases hnil rfl with h0 | h0
      · refine ⟨s', ?_, ?_⟩
        · rw [hstep, h0]
          simp [writeAt_nil]
        · rw [← hcs, h0]
          simp
      · refine ⟨s', ?_, ?_⟩
        · rw [hstep, h0]
          simp [writeAt_nil]
        · rw [← hcs, h0]
          simp
    | cons b bs =>
      have hk : (b :: bs).length = bs.length + 1 := rfl
      have hkN : (content s).length = (b :: bs).length + (content s').length := by
        rw [hcat]; simp [List.length_append]; omega
      have hstep : fillLoop rd (fuel + 1) s buf br
          = fillLoop rd fuel s' (writeAt buf br (b :: bs)) (br + (b :: bs).length) := by
        conv_lhs => unfold fillLoop
        rw [if_pos hbr, hrd]
      obtain ⟨s'', heq, hcont⟩ := ih s' (writeAt buf br (b :: bs)) (br + (b :: bs).length)
        (by rw [writeAt_length]; omega) (by omega)
      rw [writeAt_length] at heq hcont
      refine ⟨s'', ?_, ?_⟩
      · rw [hstep, heq]
        have hsub : buf.length - (br + (b :: bs).length)
            = buf.length - br - (b :: bs).length := by omega
        have hmin : br + (b :: bs).length
              + min (buf.length - (br + (b :: bs).length)) (content s').length
            = br + min (buf.length - br) (content s).length := by
          rw [hsub, hkN]; omega
        have hbuf : writeAt (writeAt buf br (b :: bs)) (br + (b :: bs).length)
              ((content s').take (buf.length - (br + (b :: bs).length)))
            = writeAt buf br ((content s).take (buf.length - br)) := by
          rw [writeAt_writeAt _ _ _ _ (by
            have := List.length_take (buf.length - (br + (b :: bs).length)) (content s')
            omega)]
          congr 1
          have hexp : buf.length - br
              = (b :: bs).length + (buf.length - br - (b :: bs).length) := by omega
          rw [hcat, hexp, List.take_append, hsub]
        rw [hmin, hbuf]
      · rw [hcont, hcat]
        have hexp : buf.length - br
            = (b :: bs).length + (buf.length - br - (b :: bs).length) := by omega
        rw [hexp, List.drop_append]
        congr 1
        omega

theorem fillLoop_zero_eq {σ : Type} (rd : σ → Nat → ReadOut × σ) (s : σ)
    (buf : List Nat) (br : Nat) : fillLoop rd 0 s buf br = .outOfFuel := rfl

theorem fillLoop_succ_eq {σ : Type} (rd : σ → Nat → ReadOut × σ) (fuel : Nat)
    (s : σ) (buf : List Nat) (br : Nat) :
    fillLoop rd (fuel + 1) s buf br =
      if br ≤ buf.length then
        match rd s (buf.length - br) with
        | (.err e, s') =>
          if e.kind = .interrupted then fillLoop rd fuel s' buf br
          else .err e s'
        | (.ok [], s') => .ok br buf s'
        | (.ok (b :: bs), s') =>
          fillLoop rd fuel s' (writeAt buf br (b :: bs)) (br + (b :: bs).length)
      else .panicked := rfl

theorem cursor_errorFree : ErrorFreeStream cursorRead (fun s => s) := by
  intro s n
  refine ⟨s.take n, s.drop n, rfl, (List.take_append_drop n s).symm, List.length_take_le n s, ?_⟩
  intro h
  rcases List.take_eq_nil_iff.mp h with h0 | h0
  · exact Or.inl h0
  · exact Or.inr h0

theorem cursor_bounded : BoundedRead cursorRead := by
  intro s n l s' h
  have hl : s.take n = l := by
    simpa [cursorRead] using congrArg (fun p => p.1) h
  rw [← hl]
  exact List.length_take_le n s

theorem fillLoop_err_not_interrupted {σ : Type} (rd : σ → Nat → ReadOut × σ) :
    ∀ fuel s buf br e s', fillLoop rd fuel s buf br = .err e s' →
      e.kind ≠ .interrupted := by
  intro fuel
  induction fuel with
  | zero =>
    intro s buf br e s' h
    rw [fillLoop_zero_eq] at h
    exact FillResult.noConfusion h
  | succ fuel ih =>
    intro s buf br e s' h
    rw [fillLoop_succ_eq] at h
    split at h
    · split at h
      · rename_i e2 s2 heq
        split at h
        · exact ih _ _ _ _ _ h
        · rename_i hk
          obtain ⟨he, -⟩ := FillResult.err.inj h
          rw [← he]; exact hk
      · exact FillResult.noConfusion h
      · exact ih _ _ _ _ _ h
    · exact FillResult.noConfusion h

theorem fill_errorFree {σ : Type} {rd : σ → Nat → ReadOut × σ}
    {content : σ → List Nat} (hEF : ErrorFreeStream rd content)
    (fuel : Nat) (s : σ) (buf : List Nat)
    (hfuel : (content s).length + 1 ≤ fuel) :
    ∃ s', fill rd fuel s buf
        = .ok (min buf.length (content s).length)
              (writeAt buf 0 ((content s).take buf.length)) s'
      ∧ content s' = (content s).drop buf.length := by
  obtain ⟨s', heq, hcont⟩ := fillLoop_errorFree hEF fuel s buf 0 (Nat.zero_le _) hfuel
  simp only [Nat.sub_zero, Nat.zero_add] at heq hcont
  exact ⟨s', heq, hcont⟩

theorem fillLoop_ne_panicked {σ : Type} {rd : σ → Nat → ReadOut × σ}
    (hB : BoundedRead rd) :
    ∀ fuel s buf br, br ≤ buf.length → fillLoop rd fuel s buf br ≠ .panicked := by
  intro fuel
  induction fuel with
  | zero =>
    intro s buf br _ h
    rw [fillLoop_zero_eq] at h
    exact FillResult.noConfusion h
  | succ fuel ih =>
    intro s buf br hbr h
    rw [fillLoop_succ_eq, if_pos hbr] at h
    split at h
    · split at h
      · exact ih _ _ _ hbr h
      · exact FillResult.noConfusion h
    · exact FillResult.noConfusion h
    · rename_i b2 bs2 s2 heq
      have hle : (b2 :: bs2).length ≤ buf.length - br := hB _ _ _ _ heq
      have := ih s2 (writeAt buf br (b2 :: bs2)) (br + (b2 :: bs2).length)
        (by rw [writeAt_length]; omega)
      exact this h

theorem fillLoop_ok_le {σ : Type} {rd : σ → Nat → ReadOut × σ}
    (hB : BoundedRead rd) :
    ∀ fuel s buf br n b s', br ≤ buf.length →
      fillLoop rd fuel s buf br = .ok n b s' →
      n ≤ buf.length ∧ b.length = buf.length := by
  intro fuel
  induction fuel with
  | zero =>
    intro s buf br n b s' _ h
    rw [fillLoop_zero_eq] at h
    exact FillResult.noConfusion h
  | succ fuel ih =>
    intro s buf br n b s' hbr h
    rw [fillLoop_succ_eq, if_pos hbr] at h
    split at h
    · split at h
      · exact ih _ _ _ _ _ _ hbr h
      · exact FillResult.noConfusion h
    · obtain ⟨h1, h2, -⟩ := FillResult.ok.inj h
      rw [← h1, ← h2]
      exact ⟨hbr, rfl⟩
    · rename_i b2 bs2 s2 heq
      have hle : (b2 :: bs2).length ≤ buf.length - br := hB _ _ _ _ heq
      have hres := ih s2 (writeAt buf br (b2 :: bs2)) (br + (b2 :: bs2).length) n b s'
        (by rw [writeAt_length]; omega) h
      rw [writeAt_length] at hres
      exact hres

/-- C2: for an error-free stream, when at least `L = buf.length` bytes are
available `fill` returns exactly `L` and the buffer holds the stream's first
`L` bytes, consumed from the stream; when exactly `K < L` bytes are
available (then a zero-byte read, no error), `fill` returns exactly `K`. -/
theorem fill_returns_available_bytes {σ : Type} {rd : σ → Nat → ReadOut × σ}
    {content : σ → List Nat} (hEF : ErrorFreeStream rd content)
    (fuel : Nat) (s : σ) (buf : List Nat)
    (hfuel : (content s).length + 1 ≤ fuel) :
    (buf.length ≤ (content s).length →
      ∃ s', fill rd fuel s buf = .ok buf.length ((content s).take buf.length) s'
        ∧ content s' = (content s).drop buf.length)
    ∧ ((content s).length < buf.length →
      ∃ s', fill rd fuel s buf
          = .ok (content s).length (content s ++ buf.drop (content s).length) s'
        ∧ content s' = []) := by
  obtain ⟨s', heq, hcont⟩ := fill_errorFree hEF fuel s buf hfuel
  constructor
  · intro hL
    refine ⟨s', ?_, hcont⟩
    rw [heq]
    have hlen : ((content s).take buf.length).length = buf.length := by
      rw [List.length_take]; omega
    congr 1
    · omega
    · rw [writeAt_eq _ _ _ (by rw [hlen]; omega)]
      simp [hlen, List.drop_length]
  · intro hK
    have htk : (content s).take buf.length = content s :=
      List.take_of_length_le (by omega)
    refine ⟨s', ?_, ?_⟩
    · rw [heq, htk]
      congr 1
      · omega
      · rw [writeAt_eq _ _ _ (by omega)]
        simp
    · rw [hcont]
      exact List.drop_eq_nil_of_le (by omega)

theorem fill_returns_available_bytes_witness :
    (∃ s', fill cursorRead 6 [1,2,3,4,5] [0,0,0] = .ok 3 [1,2,3] s' ∧ s' = [4,5])
    ∧ (∃ s', fill cursorRead 6 [1,2] [0,0,0] = .ok 2 [1,2,0] s' ∧ s' = []) :=
  ⟨(fill_returns_available_bytes cursor_errorFree 6 [1,2,3,4,5] [0,0,0]
      (by decide)).1 (by decide),
   (fill_returns_available_bytes cursor_errorFree 6 [1,2] [0,0,0]
      (by decide)).2 (by decide)⟩

/-- C4: an interrupted error from a single-shot read is discarded and the
read retried immediately with the accumulated count unchanged, and no caller
of `fill` or consumer of `ChunkedReader.next` ever observes an error of kind
interrupted. -/
theorem interrupted_never_observed {σ : Type} (rd : σ → Nat → ReadOut × σ) :
    (∀ fuel s s' buf br e, br ≤ buf.length →
        rd s (buf.length - br) = (.err e, s') → e.kind = .interrupted →
        fillLoop rd (fuel + 1) s buf br = fillLoop rd fuel s' buf br)
    ∧ (∀ fuel s buf e s', fill rd fuel s buf = .err e s' →
        e.kind ≠ .interrupted)
    ∧ (∀ fuel cr e cr', ChunkedReader.next rd fuel cr = (.err e, cr') →
        e.kind ≠ .interrupted) := by
  refine ⟨?_, ?_, ?_⟩
  · intro fuel s s' buf br e hbr hrd hk
    rw [fillLoop_succ_eq, if_pos hbr, hrd]
    simp [hk]
  · intro fuel s buf e s' h
    exact fillLoop_err_not_interrupted rd fuel s buf 0 e s' h
  · intro fuel cr e cr' h
    unfold ChunkedReader.next at h
    split at h
    · rename_i e2 s2 heq
      obtain ⟨h1, -⟩ := Prod.mk.inj h
      obtain he := NextOut.err.inj h1
      rw [← he]
      exact fillLoop_err_not_interrupted rd fuel cr.read _ 0 e2 s2 heq
    · simp at h
    · simp at h
    · simp at h
    · simp at h

theorem interrupted_never_observed_witness :
    fillLoop scriptRead 4 [ReadOut.err ⟨.interrupted, 0⟩, .ok []] [0,0] 0
      = fillLoop scriptRead 3 [ReadOut.ok []] [0,0] 0
    ∧ (⟨ErrorKind.other 3, 9⟩ : IoError).kind ≠ .interrupted :=
  ⟨(interrupted_never_observed scriptRead).1 3 _ _ _ 0 ⟨.interrupted, 0⟩
      (by decide) (by decide) (by decide),
   (interrupted_never_observed scriptRead).2.2 4 ⟨[.err ⟨.other 3, 9⟩], 2⟩
      (⟨.other 3, 9⟩ : IoError) ⟨[], 2⟩ (by decide)⟩

/-- C5: a read error of any kind other than interrupted stops `fill`
immediately: exactly that error value is returned, unmodified, with no byte
count, and `ChunkedReader.next` yields the very same error verbatim. -/
theorem fatal_error_returned_verbatim {σ : Type} (rd : σ → Nat → ReadOut × σ) :
    (∀ fuel s s' buf br e, br ≤ buf.length →
        rd s (buf.length - br) = (.err e, s') → e.kind ≠ .interrupted →
        fillLoop rd (fuel + 1) s buf br = .err e s')
    ∧ (∀ fuel cr e s',
        fill rd fuel cr.read (List.replicate cr.size 0) = .err e s' →
        ChunkedReader.next rd fuel cr = (.err e, ⟨s', cr.size⟩)) := by
  constructor
  · intro fuel s s' buf br e hbr hrd hk
    rw [fillLoop_succ_eq, if_pos hbr, hrd]
    simp [hk]
  · intro fuel cr e s' h
    unfold ChunkedReader.next
    rw [h]

theorem fatal_error_returned_verbatim_witness :
    fillLoop scriptRead 4 [ReadOut.err ⟨.other 2, 5⟩] [0,0,0] 0
      = .err ⟨.other 2, 5⟩ []
    ∧ ChunkedReader.next scriptRead 4 ⟨[ReadOut.err ⟨.other 2, 5⟩], 3⟩
      = (.err ⟨.other 2, 5⟩, ⟨[], 3⟩) :=
  ⟨(fatal_error_returned_verbatim scriptRead).1 3 _ _ _ 0 ⟨.other 2, 5⟩
      (by decide) (by decide) (by decide),
   (fatal_error_returned_verbatim scriptRead).2 4 ⟨[.err ⟨.other 2, 5⟩], 3⟩
      (⟨.other 2, 5⟩ : IoError) [] (by decide)⟩

/-- C6: constructing a chunker with size 0 fails fatally at construction
time itself (there is no constructed value whose first advance could fail
instead), and any size > 0 succeeds, storing the stream and size
unchanged. -/
theorem chunked_zero_size_fails_at_construction {σ : Type} (s : σ)
    (size : Nat) :
    chunked s 0 = none ∧ (size ≠ 0 → chunked s size = some ⟨s, size⟩) := by
  constructor
  · simp [chunked]
  · intro h
    simp [chunked, h]

theorem chunked_zero_size_fails_at_construction_witness :
    chunked ([3,4] : List Nat) 0 = none
    ∧ chunked ([3,4] : List Nat) 7 = some ⟨[3,4], 7⟩ :=
  ⟨(chunked_zero_size_fails_at_construction [3,4] 7).1,
   (chunked_zero_size_fails_at_construction [3,4] 7).2 (by decide)⟩

/-- C7: assuming every single-shot read reports at most the length of the
slice it was given, the accumulated count never exceeds the buffer length,
so the suffix slice is always in bounds (`fill` never panics) and any count
returned is at most the buffer's length, for buffers of any length. -/
theorem fill_count_within_buffer {σ : Type} {rd : σ → Nat → ReadOut × σ}
    (hB : BoundedRead rd) (fuel : Nat) (s : σ) (buf : List Nat) :
    (∀ br, br ≤ buf.length → fillLoop rd fuel s buf br ≠ .panicked)
    ∧ fill rd fuel s buf ≠ .panicked
    ∧ (∀ n b s', fill rd fuel s buf = .ok n b s' → n ≤ buf.length) := by
  refine ⟨?_, ?_, ?_⟩
  · intro br hbr
    exact fillLoop_ne_panicked hB fuel s buf br hbr
  · exact fillLoop_ne_panicked hB fuel s buf 0 (Nat.zero_le _)
  · intro n b s' h
    exact (fillLoop_ok_le hB fuel s buf 0 n b s' (Nat.zero_le _) h).1

theorem fill_count_within_buffer_witness :
    fill cursorRead 5 [7,8] [0,0,0] ≠ .panicked
    ∧ (2 : Nat) ≤ ([0,0,0] : List Nat).length :=
  ⟨(fill_count_within_buffer cursor_bounded 5 [7,8] [0,0,0]).2.1,
   (fill_count_within_buffer cursor_bounded 5 [7,8] [0,0,0]).2.2 2 [7,8,0] []
      (by decide)⟩

/-- C8: `intoInner` returns exactly the stream that `chunked` stored (a
round trip when no advance was performed), and after an advance the stream
obtained from `intoInner` has consumed exactly the bytes of that advance:
its remaining content is the original content minus the first chunk. -/
theorem intoInner_returns_underlying_stream {σ : Type}
    {rd : σ → Nat → ReadOut × σ} {content : σ → List Nat}
    (hEF : ErrorFreeStream rd content) (s : σ) (size fuel : Nat)
    (hS : size ≠ 0) (hfuel : (content s).length + 1 ≤ fuel) :
    (chunked s size).map ChunkedReader.intoInner = some s
    ∧ ∃ out s', ChunkedReader.next rd fuel ⟨s, size⟩ = (out, ⟨s', size⟩)
        ∧ content (ChunkedReader.intoInner ⟨s', size⟩)
          = (content s).drop size := by
  constructor
  · simp [chunked, hS, ChunkedReader.intoInner]
  · obtain ⟨s', heq, hcont⟩ := fill_errorFree hEF fuel s (List.replicate size 0) hfuel
    have hrl : (List.replicate size 0 : List Nat).length = size :=
      List.length_replicate size 0
    rw [hrl] at heq hcont
    rcases hn : min size (content s).length with _ | m
    · refine ⟨.none, s', ?_, hcont⟩
      rw [hn] at heq
      simp only [ChunkedReader.next, heq]
    · refine ⟨.chunk ((writeAt (List.replicate size 0)
        0 ((content s).take size)).take (m + 1)), s', ?_, hcont⟩
      rw [hn] at heq
      simp only [ChunkedReader.next, heq]

theorem intoInner_returns_underlying_stream_witness :
    (chunked ([1,2,3] : List Nat) 2).map ChunkedReader.intoInner = some [1,2,3]
    ∧ ∃ out s', ChunkedReader.next cursorRead 4 ⟨[1,2,3], 2⟩ = (out, ⟨s', 2⟩)
        ∧ s' = [3] :=
  intoInner_returns_underlying_stream cursor_errorFree [1,2,3] 2 4 (by decide)
    (by decide)

/-- C10: once the accumulated count equals the buffer's length (the buffer
is exactly full), the loop performs one more single-shot read, now with a
zero-length slice; the full count is returned only if that read reports 0
bytes, an interrupted error from it is retried, and any other error from it
is returned in place of the count. -/
theorem fill_full_buffer_extra_read {σ : Type} (rd : σ → Nat → ReadOut × σ)
    (fuel : Nat) (s : σ) (buf : List Nat) :
    (∀ s', rd s 0 = (.ok [], s') →
        fillLoop rd (fuel + 1) s buf buf.length = .ok buf.length buf s')
    ∧ (∀ e s', rd s 0 = (.err e, s') → e.kind = .interrupted →
        fillLoop rd (fuel + 1) s buf buf.length
          = fillLoop rd fuel s' buf buf.length)
    ∧ (∀ e s', rd s 0 = (.err e, s') → e.kind ≠ .interrupted →
        fillLoop rd (fuel + 1) s buf buf.length = .err e s') := by
  refine ⟨?_, ?_, ?_⟩
  · intro s' hrd
    rw [fillLoop_succ_eq, if_pos (le_refl _), Nat.sub_self, hrd]
  · intro e s' hrd hk
    rw [fillLoop_succ_eq, if_pos (le_refl _), Nat.sub_self, hrd]
    simp [hk]
  · intro e s' hrd hk
    rw [fillLoop_succ_eq, if_pos (le_refl _), Nat.sub_self, hrd]
    simp [hk]

theorem fill_full_buffer_extra_read_witness :
    fillLoop scriptRead 4 [ReadOut.ok []] [1,2] ([1,2] : List Nat).length
      = .ok 2 [1,2] []
    ∧ fillLoop scriptRead 4 [ReadOut.err ⟨.other 9, 1⟩] [1,2]
        ([1,2] : List Nat).length = .err ⟨.other 9, 1⟩ [] :=
  ⟨(fill_full_buffer_extra_read scriptRead 3 [ReadOut.ok []] [1,2]).1 []
      (by decide),
   (fill_full_buffer_extra_read scriptRead 3 [ReadOut.err ⟨.other 9, 1⟩]
      [1,2]).2.2 (⟨.other 9, 1⟩ : IoError) [] (by decide) (by decide)⟩

/-- C3 counterexample: a stream whose first read delivers exactly the whole
buffer and whose second read reports a fatal error. The claim predicts that
`fill` stops as soon as the buffer is full and returns the accumulated
count 2 without a further read; the code instead performs one more read and
returns its error. -/
theorem fill_stops_when_full_counterexample :
    fill scriptRead 5 [ReadOut.ok [1,2], .err ⟨.other 7, 0⟩] [0,0]
      = .err ⟨.other 7, 0⟩ [] := by decide

/-- C3 (amended): a positive read count is added to the accumulated total
and the loop always continues against the new remaining suffix — also when
the buffer has just become completely full, in which case the next
iteration performs a further single-shot read on the (now empty) suffix
rather than returning the count without reading. -/
theorem fill_positive_read_continues {σ : Type} (rd : σ → Nat → ReadOut × σ)
    (fuel : Nat) (s s' : σ) (buf : List Nat) (br b : Nat) (bs : List Nat)
    (hbr : br ≤ buf.length)
    (hrd : rd s (buf.length - br) = (.ok (b :: bs), s')) :
    fillLoop rd (fuel + 1) s buf br
      = fillLoop rd fuel s' (writeAt buf br (b :: bs)) (br + (b :: bs).length) := by
  rw [fillLoop_succ_eq, if_pos hbr, hrd]

theorem fill_positive_read_continues_witness :
    fillLoop scriptRead 4 [ReadOut.ok [1], .ok []] [0,0] 0
      = fillLoop scriptRead 3 [ReadOut.ok []] (writeAt [0,0] 0 [1]) 1 :=
  fill_positive_read_continues scriptRead 3 _ _ [0,0] 0 1 [] (by decide)
    (by decide)

/-- C9 counterexample: a wrapped stream that reports a zero-byte read and
then delivers a byte. The first advance reports end of sequence, yet the
second advance produces a chunk, so Exhausted is not terminal for the code:
the chunker keeps no termination state of its own. -/
theorem chunker_exhausted_not_terminal_counterexample :
    (ChunkedReader.next scriptRead 5 ⟨[ReadOut.ok [], .ok [5], .ok []], 1⟩).1
      = .none
    ∧ (ChunkedReader.next scriptRead 5
        ((ChunkedReader.next scriptRead 5
          ⟨[ReadOut.ok [], .ok [5], .ok []], 1⟩).2)).1
      = .chunk [5] := by decide

/-- C9 (amended): the chunker stores no Exhausted or Errored state;
terminality is inherited from the wrapped stream. For a stream state that
persistently reports zero-byte reads, every advance reports end of sequence
and leaves the state unchanged, and for a stream state that persistently
reports the same fatal error, every advance reports that error and leaves
the state unchanged — so for such streams end-of-sequence and error are
indeed terminal. -/
theorem chunker_terminal_only_via_stream {σ : Type}
    (rd : σ → Nat → ReadOut × σ) (s : σ) (size fuel : Nat)
    (hfuel : 1 ≤ fuel) :
    ((∀ n, rd s n = (.ok [], s)) →
      ChunkedReader.next rd fuel ⟨s, size⟩ = (.none, ⟨s, size⟩))
    ∧ (∀ e, e.kind ≠ .interrupted → (∀ n, rd s n = (.err e, s)) →
      ChunkedReader.next rd fuel ⟨s, size⟩ = (.err e, ⟨s, size⟩)) := by
  obtain ⟨f, rfl⟩ : ∃ f, fuel = f + 1 := ⟨fuel - 1, by omega⟩
  constructor
  · intro h
    have hfill : fill rd (f + 1) s (List.replicate size 0)
        = .ok 0 (List.replicate size 0) s := by
      rw [fill, fillLoop_succ_eq, if_pos (Nat.zero_le _), h]
    simp only [ChunkedReader.next, hfill]
  · intro e hk h
    have hfill : fill rd (f + 1) s (List.replicate size 0) = .err e s := by
      rw [fill, fillLoop_succ_eq, if_pos (Nat.zero_le _), h]
      simp [hk]
    simp only [ChunkedReader.next, hfill]

theorem chunker_terminal_only_via_stream_witness :
    ChunkedReader.next (fun (_ : Unit) (_ : Nat) => ((.ok [] : ReadOut), ()))
        3 ⟨(), 4⟩ = (.none, ⟨(), 4⟩)
    ∧ ChunkedReader.next
        (fun (_ : Unit) (_ : Nat) => ((.err ⟨.other 1, 2⟩ : ReadOut), ()))
        3 ⟨(), 4⟩ = (.err ⟨.other 1, 2⟩, ⟨(), 4⟩) :=
  ⟨(chunker_terminal_only_via_stream _ () 4 3 (by decide)).1 (fun _ => rfl),
   (chunker_terminal_only_via_stream _ () 4 3 (by decide)).2
      (⟨.other 1, 2⟩ : IoError) (by decide) (fun _ => rfl)⟩

theorem splitChunks_eq (S : Nat) (l : List Nat) :
    splitChunks S l = if S = 0 ∨ l = [] then []
      else l.take S :: splitChunks S (l.drop S) := by
  rw [splitChunks]
  split <;> rfl

theorem splitChunks_nil (S : Nat) : splitChunks S [] = [] := by
  rw [splitChunks_eq]
  simp

theorem splitChunks_cons (S : Nat) (l : List Nat) (hS : S ≠ 0) (hl : l ≠ []) :
    splitChunks S l = l.take S :: splitChunks S (l.drop S) := by
  rw [splitChunks_eq, if_neg]
  simp [hS, hl]

theorem splitChunks_eq_nil_iff (S : Nat) (l : List Nat) (hS : S ≠ 0) :
    splitChunks S l = [] ↔ l = [] := by
  constructor
  · intro h
    by_contra hl
    rw [splitChunks_cons S l hS hl] at h
    exact List.noConfusion h
  · intro h
    rw [h, splitChunks_nil]

theorem splitChunks_flatten (S : Nat) (hS : S ≠ 0) (l : List Nat) :
    (splitChunks S l).flatten = l := by
  have hgen : ∀ n l2, (l2 : List Nat).length = n → (splitChunks S l2).flatten = l2 := by
    intro n
    induction n using Nat.strong_induction_on with
    | _ n ih =>
      intro l2 hn
      by_cases hl : l2 = []
      · rw [hl, splitChunks_nil]
        rfl
      · rw [splitChunks_cons S l2 hS hl, List.flatten_cons]
        rw [ih (l2.drop S).length (by
          have : 0 < l2.length := List.length_pos.mpr hl
          simp only [List.length_drop]
          omega) (l2.drop S) rfl]
        exact List.take_append_drop S l2
  exact hgen l.length l rfl

theorem ceilDiv_step (S len : Nat) (hS : S ≠ 0) (hlen : 1 ≤ len) :
    (len + S - 1) / S = (len - S + S - 1) / S + 1 := by
  rcases Nat.le_total S len with h | h
  · have he : len + S - 1 = (len - S + S - 1) + S := by omega
    rw [he, Nat.add_div_right _ (by omega)]
  · have h1 : len - S = 0 := by omega
    have he : len + S - 1 = (len - 1) + S := by omega
    rw [h1, he, Nat.add_div_right _ (by omega),
      Nat.div_eq_of_lt (a := len - 1) (by omega), Nat.zero_add,
      Nat.div_eq_of_lt (by omega)]

theorem splitChunks_length (S : Nat) (hS : S ≠ 0) (l : List Nat) :
    (splitChunks S l).length = (l.length + S - 1) / S := by
  have hgen : ∀ n l2, (l2 : List Nat).length = n →
      (splitChunks S l2).length = (l2.length + S - 1) / S := by
    intro n
    induction n using Nat.strong_induction_on with
    | _ n ih =>
      intro l2 hn
      by_cases hl : l2 = []
      · rw [hl, splitChunks_nil]
        simp only [List.length_nil, Nat.zero_add]
        rw [Nat.div_eq_of_lt (by omega)]
      · have hpos : 0 < l2.length := List.length_pos.mpr hl
        rw [splitChunks_cons S l2 hS hl, List.length_cons]
        rw [ih (l2.drop S).length (by simp only [List.length_drop]; omega)
          (l2.drop S) rfl]
        rw [List.length_drop]
        exact (ceilDiv_step S l2.length hS (by omega)).symm
  exact hgen l.length l rfl

theorem splitChunks_dropLast_length (S : Nat) (hS : S ≠ 0) (l : List Nat) :
    ∀ c ∈ (splitChunks S l).dropLast, c.length = S := by
  have hgen : ∀ n l2, (l2 : List Nat).length = n →
      ∀ c ∈ (splitChunks S l2).dropLast, c.length = S := by
    intro n
    induction n using Nat.strong_induction_on with
    | _ n ih =>
      intro l2 hn c hc
      by_cases hl : l2 = []
      · rw [hl, splitChunks_nil] at hc
        exact absurd hc (List.not_mem_nil c)
      · have hpos : 0 < l2.length := List.length_pos.mpr hl
        rw [splitChunks_cons S l2 hS hl] at hc
        by_cases hrest : l2.drop S = []
        · rw [hrest, splitChunks_nil] at hc
          exact absurd hc (List.not_mem_nil c)
        · rw [List.dropLast_cons_of_ne_nil
            ((not_iff_not.mpr (splitChunks_eq_nil_iff S (l2.drop S) hS)).mpr
              hrest)] at hc
          rcases List.mem_cons.mp hc with hc1 | hc2
          · have hSle : S ≤ l2.length := by
              by_contra hgt
              exact hrest (List.drop_eq_nil_of_le (by omega))
            rw [hc1, List.length_take]
            omega
          · exact ih (l2.drop S).length
              (by simp only [List.length_drop]; omega) (l2.drop S) rfl c hc2
  exact hgen l.length l rfl

theorem splitChunks_getLast_length (S : Nat) (hS : S ≠ 0) (l : List Nat) :
    ∀ c, (splitChunks S l).getLast? = some c →
      c.length = if l.length % S = 0 then S else l.length % S := by
  have hgen : ∀ n l2, (l2 : List Nat).length = n →
      ∀ c, (splitChunks S l2).getLast? = some c →
        c.length = if l2.length % S = 0 then S else l2.length % S := by
    intro n
    induction n using Nat.strong_induction_on with
    | _ n ih =>
      intro l2 hn c hc
      by_cases hl : l2 = []
      · rw [hl, splitChunks_nil] at hc
        exact Option.noConfusion hc
      · have hpos : 0 < l2.length := List.length_pos.mpr hl
        rw [splitChunks_cons S l2 hS hl] at hc
        by_cases hrest : l2.drop S = []
        · have hle : l2.length ≤ S := by
            by_contra hgt
            have : l2.drop S ≠ [] := by
              have : 0 < (l2.drop S).length := by
                simp only [List.length_drop]; omega
              exact List.length_pos.mp this
            exact this hrest
          rw [hrest, splitChunks_nil] at hc
          have hcc : c = l2.take S := (Option.some.inj hc).symm
          rw [hcc, List.length_take]
          rcases Nat.lt_or_ge l2.length S with hlt | hge
      -- l2.length < S: min = l2.length, mod is l2.length itself (nonzero)
          · rw [if_neg (by rw [Nat.mod_eq_of_lt hlt]; omega)]
            rw [Nat.mod_eq_of_lt hlt]
            omega
          · have hSeq : l2.length = S := by omega
            rw [hSeq]
            simp
        · have hne : splitChunks S (l2.drop S) ≠ [] :=
            (not_iff_not.mpr (splitChunks_eq_nil_iff S (l2.drop S) hS)).mpr hrest
          have hSle : S ≤ l2.length := by
            by_contra hgt
            exact hrest (List.drop_eq_nil_of_le (by omega))
          obtain ⟨r, rs, hr⟩ := List.exists_cons_of_ne_nil hne
          rw [hr] at hc
          rw [List.getLast?_cons_cons] at hc
          rw [← hr] at hc
          have := ih (l2.drop S).length
            (by simp only [List.length_drop]; omega) (l2.drop S) rfl c hc
          rw [List.length_drop] at this
          have hmod : (l2.length - S) % S = l2.length % S := by
            have he : l2.length = (l2.length - S) + S := by omega
            conv_rhs => rw [he]
            rw [Nat.add_mod_right]
          rw [hmod] at this
          exact this
  exact hgen l.length l rfl

theorem collectChunks_succ_eq {σ : Type} (rd : σ → Nat → ReadOut × σ)
    (fuel steps : Nat) (cr : ChunkedReader σ) :
    collectChunks rd fuel (steps + 1) cr =
      match ChunkedReader.next rd fuel cr with
      | (.none, _) => some []
      | (.chunk c, cr') => (collectChunks rd fuel steps cr').map (c :: ·)
      | _ => none := rfl

theorem collectChunks_errorFree {σ : Type} {rd : σ → Nat → ReadOut × σ}
    {content : σ → List Nat} (hEF : ErrorFreeStream rd content)
    (S : Nat) (hS : S ≠ 0) :
    ∀ N s steps fuel, (content s).length = N → N + 1 ≤ fuel → N + 1 ≤ steps →
      collectChunks rd fuel steps ⟨s, S⟩ = some (splitChunks S (content s)) := by
  intro N
  induction N using Nat.strong_induction_on with
  | _ N ih =>
    intro s steps fuel hN hfuel hsteps
    obtain ⟨f2, rfl⟩ : ∃ f, steps = f + 1 := ⟨steps - 1, by omega⟩
    obtain ⟨s', heq, hcont⟩ := fill_errorFree hEF fuel s (List.replicate S 0)
      (by omega)
    rw [List.length_replicate] at heq hcont
    by_cases h0 : content s = []
    · have hmin : min S (content s).length = 0 := by rw [h0]; simp
      rw [hmin] at heq
      have hnext : ChunkedReader.next rd fuel ⟨s, S⟩ = (.none, ⟨s', S⟩) := by
        simp only [ChunkedReader.next, heq]
      simp only [collectChunks_succ_eq, hnext]
      rw [h0, splitChunks_nil]
    · have hpos : 0 < (content s).length := List.length_pos.mpr h0
      obtain ⟨m, hm⟩ : ∃ m, min S (content s).length = m + 1 :=
        ⟨min S (content s).length - 1, by omega⟩
      rw [hm] at heq
      have htl : ((content s).take S).length = m + 1 := by
        rw [List.length_take]; omega
      have hc : (writeAt (List.replicate S 0) 0 ((content s).take S)).take (m + 1)
          = (content s).take S := by
        rw [writeAt_eq _ _ _ (by
          rw [List.length_replicate, Nat.zero_add, htl]; omega)]
        simp only [List.take_zero, List.nil_append]
        exact List.take_left' htl
      have hnext : ChunkedReader.next rd fuel ⟨s, S⟩
          = (.chunk ((content s).take S), ⟨s', S⟩) := by
        simp only [ChunkedReader.next, heq, hc]
      simp only [collectChunks_succ_eq, hnext]
      have hlen' : (content s').length = (content s).length - S := by
        rw [hcont, List.length_drop]
      rw [ih (content s').length (by omega) s' f2 fuel rfl (by omega) (by omega)]
      rw [splitChunks_cons S (content s) hS h0, hcont]
      rfl

/-- C1: for an error-free stream of total length `N` and chunk size `S > 0`,
iterating the chunker collects exactly `ceil(N / S)` chunks (0 when
`N = 0`); every chunk except possibly the last has length exactly `S`, the
last has length `N mod S` (or `S` when `S` divides `N`), and the
concatenation of the chunks, in order, is exactly the stream's content. -/
theorem chunker_produces_exact_chunk_sequence {σ : Type}
    {rd : σ → Nat → ReadOut × σ} {content : σ → List Nat}
    (hEF : ErrorFreeStream rd content) (s : σ) (S N steps fuel : Nat)
    (hS : S ≠ 0) (hN : (content s).length = N)
    (hfuel : N + 1 ≤ fuel) (hsteps : N + 1 ≤ steps) :
    ∃ cs, collectChunks rd fuel steps ⟨s, S⟩ = some cs
      ∧ cs.length = (N + S - 1) / S
      ∧ cs.flatten = content s
      ∧ (∀ c ∈ cs.dropLast, c.length = S)
      ∧ (∀ c, cs.getLast? = some c →
          c.length = if N % S = 0 then S else N % S) := by
  subst hN
  refine ⟨splitChunks S (content s),
    collectChunks_errorFree hEF S hS (content s).length s steps fuel rfl
      hfuel hsteps,
    splitChunks_length S hS (content s),
    splitChunks_flatten S hS (content s),
    splitChunks_dropLast_length S hS (content s),
    splitChunks_getLast_length S hS (content s)⟩

theorem chunker_produces_exact_chunk_sequence_witness :
    (∃ cs, collectChunks cursorRead 14 14
        ⟨[72,101,108,108,111,44,32,87,111,114,108,100,33], 5⟩ = some cs
      ∧ cs.length = (13 + 5 - 1) / 5
      ∧ cs.flatten = [72,101,108,108,111,44,32,87,111,114,108,100,33]
      ∧ (∀ c ∈ cs.dropLast, c.length = 5)
      ∧ (∀ c, cs.getLast? = some c →
          c.length = if 13 % 5 = 0 then 5 else 13 % 5))
    ∧ collectChunks cursorRead 14 14
        ⟨[72,101,108,108,111,44,32,87,111,114,108,100,33], 5⟩
      = some [[72,101,108,108,111], [44,32,87,111,114], [108,100,33]] :=
  ⟨chunker_produces_exact_chunk_sequence cursor_errorFree
      [72,101,108,108,111,44,32,87,111,114,108,100,33] 5 13 14 14
      (by decide) (by decide) (by decide) (by decide),
   by decide⟩
